import Mathlib

/-!
Verification of the ExamBulldozer pipeline: the token-budget batch planner
(`App.render_main` in `app.py`) and the JSON normalization/validation
processor (`json_processor.py`), embedded shallowly as executable Lean
functions and proved against the testable properties of the specification.
-/

set_option autoImplicit false

namespace ExamBulldozer

/-! ## Batch planner (`App.render_main`, app.py)

The planner body is the loop

    for q in questions:
        q_tokens = self.count_tokens(q)
        if current_tokens + q_tokens > batch_token_limit and current_batch:
            batches.append(current_batch); current_batch = []; current_tokens = 0
        current_batch.append(q); current_tokens += q_tokens
    if current_batch: batches.append(current_batch)

`count_tokens` (tiktoken) is an external pure function, modelled as an
abstract `tok : String → Nat`; `batch_token_limit` is an `Int` because the
Python expression `int(max_tokens*(1-safety_margin)) - prompt_tokens -
schema_tokens` can be negative. -/

/-- One step state of the Python loop: the remaining questions are the
recursion argument, `cur`/`curTok` mirror `current_batch`/`current_tokens`;
the trailing `if current_batch: batches.append(current_batch)` is the base
case. -/
def planAux (tok : String → Nat) (budget : Int) :
    List String → List String → Nat → List (List String)
  | [], cur, _ => if cur = [] then [] else [cur]
  | q :: qs, cur, curTok =>
    if ((curTok : Int) + tok q > budget) ∧ cur ≠ [] then
      cur :: planAux tok budget qs [q] (tok q)
    else
      planAux tok budget qs (cur ++ [q]) (curTok + tok q)

/-- The `batches` list as computed by `App.render_main` from the split questions. -/
def planBatches (tok : String → Nat) (budget : Int) (questions : List String) :
    List (List String) :=
  planAux tok budget questions [] 0

/-- Estimated token cost of a batch: the sum of its units' token counts,
matching the `current_tokens` accumulator. -/
def batchCost (tok : String → Nat) (batch : List String) : Nat :=
  (batch.map tok).sum

lemma planAux_join (tok : String → Nat) (budget : Int) :
    ∀ (qs cur : List String) (curTok : Nat),
      (planAux tok budget qs cur curTok).flatten = cur ++ qs := by
  intro qs
  induction qs with
  | nil =>
    intro cur curTok
    by_cases h : cur = [] <;> simp [planAux, h]
  | cons q qs ih =>
    intro cur curTok
    by_cases h : ((curTok : Int) + tok q > budget) ∧ cur ≠ []
    · simp [planAux, h, ih]
    · simp [planAux, h, ih]

lemma batchCost_append (tok : String → Nat) (cur : List String) (q : String) :
    batchCost tok (cur ++ [q]) = batchCost tok cur + tok q := by
  simp [batchCost]

lemma le_batchCost_of_mem (tok : String → Nat) {u : String} {b : List String}
    (hu : u ∈ b) : tok u ≤ batchCost tok b := by
  induction b with
  | nil => cases hu
  | cons x xs ih =>
    simp only [batchCost, List.map_cons, List.sum_cons]
    rcases List.mem_cons.mp hu with h | h
    · subst h; omega
    · have := ih h
      simp only [batchCost] at this
      omega

lemma planAux_cost_le (tok : String → Nat) (budget : Int) :
    ∀ (qs cur : List String) (curTok : Nat),
      curTok = batchCost tok cur →
      (curTok : Int) ≤ budget →
      (∀ q ∈ qs, (tok q : Int) ≤ budget) →
      ∀ b ∈ planAux tok budget qs cur curTok, (batchCost tok b : Int) ≤ budget := by
  intro qs
  induction qs with
  | nil =>
    intro cur curTok hinv hle _ b hb
    by_cases h : cur = []
    · simp [planAux, h] at hb
    · simp [planAux, h] at hb
      subst hb
      omega
  | cons q qs ih =>
    intro cur curTok hinv hle hall b hb
    have hq : (tok q : Int) ≤ budget := hall q (by simp)
    have hall' : ∀ r ∈ qs, (tok r : Int) ≤ budget := fun r hr => hall r (by simp [hr])
    by_cases h : ((curTok : Int) + tok q > budget) ∧ cur ≠ []
    · simp only [planAux, if_pos h, List.mem_cons] at hb
      rcases hb with rfl | hb
      · omega
      · exact ih [q] (tok q) (by simp [batchCost]) hq hall' b hb
    · simp only [planAux, if_neg h] at hb
      rcases Decidable.not_and_iff_or_not.mp h with h1 | h2
      · have hnew : ((curTok + tok q : Nat) : Int) ≤ budget := by
          push_cast
          omega
        exact ih (cur ++ [q]) (curTok + tok q)
          (by rw [batchCost_append, hinv]) hnew hall' b hb
      · have hcur : cur = [] := by
          by_cases hc : cur = []
          · exact hc
          · exact absurd hc (by simpa using h2)
        subst hcur
        have h0 : curTok = 0 := by simpa [batchCost] using hinv
        subst h0
        simp only [List.nil_append, Nat.zero_add] at hb
        exact ih [q] (tok q) (by simp [batchCost]) (by simpa using hq) hall' b hb

/-- Claim C1: the batches produced by the planner concatenate, in order, to
exactly the original question sequence: no unit is omitted, duplicated or
reordered. -/
theorem plan_partition (tok : String → Nat) (budget : Int) (questions : List String) :
    (planBatches tok budget questions).flatten = questions := by
  simpa using planAux_join tok budget questions [] 0

/-- Claim C3: for a positive budget, if every unit's estimated token cost is at
most the budget then every produced batch's summed cost is at most the
budget. -/
theorem plan_batch_cost_le (tok : String → Nat) (budget : Int)
    (questions : List String) (hpos : 0 < budget)
    (hunits : ∀ q ∈ questions, (tok q : Int) ≤ budget) :
    ∀ b ∈ planBatches tok budget questions, (batchCost tok b : Int) ≤ budget := by
  intro b hb
  exact planAux_cost_le tok budget questions [] 0 (by simp [batchCost])
    (by omega) hunits b hb

/-- Witness for `plan_batch_cost_le` at `tok = String.length`, budget 10. -/
theorem plan_batch_cost_le_witness :
    (batchCost String.length ["ab", "cde"] : Int) ≤ 10 :=
  plan_batch_cost_le String.length 10 ["ab", "cde"] (by decide)
    (by decide) ["ab", "cde"] (by decide)

lemma planAux_nonpos (tok : String → Nat) (budget : Int) (hb : budget ≤ 0) :
    ∀ (qs : List String), (∀ q ∈ qs, 1 ≤ tok q) →
      ∀ (cur : List String) (curTok : Nat), cur ≠ [] →
        planAux tok budget qs cur curTok = cur :: qs.map (fun q => [q]) := by
  intro qs
  induction qs with
  | nil =>
    intro _ cur curTok hcur
    simp [planAux, hcur]
  | cons q qs ih =>
    intro hall cur curTok hcur
    have hq : 1 ≤ tok q := hall q (by simp)
    have hcond : ((curTok : Int) + tok q > budget) ∧ cur ≠ [] := by
      constructor
      · have : (1 : Int) ≤ tok q := by exact_mod_cast hq
        omega
      · exact hcur
    rw [planAux, if_pos hcond,
      ih (fun r hr => hall r (by simp [hr])) [q] (tok q) (by simp)]
    simp

/-- Refutation of claim C4 as stated: at a non-positive computed budget the
planning loop in `App.render_main` runs to completion and returns the
one-unit-per-batch output; no configuration error is raised anywhere on
that path (the code never tests `batch_token_limit`). -/
theorem plan_nonpos_budget_counterexample :
    planBatches String.length 0 ["ab", "cd"] = [["ab"], ["cd"]] := by decide

/-- Claim C4 (amended): when the computed token budget is ≤ 0 the planner does
not signal any error: it silently places every unit of positive token cost
in its own batch. -/
theorem plan_nonpos_budget_single (tok : String → Nat) (budget : Int)
    (questions : List String) (hb : budget ≤ 0)
    (hunits : ∀ q ∈ questions, 1 ≤ tok q) :
    planBatches tok budget questions = questions.map (fun q => [q]) := by
  cases questions with
  | nil => simp [planBatches, planAux]
  | cons q qs =>
    have hq : 1 ≤ tok q := hunits q (by simp)
    have hcond : ¬ (((0 : Nat) : Int) + tok q > budget ∧ ([] : List String) ≠ []) := by
      simp
    rw [planBatches, planAux, if_neg hcond]
    simp only [List.nil_append, Nat.zero_add]
    rw [planAux_nonpos tok budget hb qs
      (fun r hr => hunits r (by simp [hr])) [q] (tok q) (by simp)]
    simp

/-- Witness for `plan_nonpos_budget_single` at budget `-1`. -/
theorem plan_nonpos_budget_single_witness :
    planBatches String.length (-1) ["x", "yz"] = [["x"], ["yz"]] :=
  plan_nonpos_budget_single String.length (-1) ["x", "yz"] (by decide) (by decide)

lemma planAux_oversized (tok : String → Nat) (budget : Int) :
    ∀ (qs cur : List String) (curTok : Nat),
      curTok = batchCost tok cur →
      (∀ u ∈ cur, budget < (tok u : Int) → cur = [u]) →
      ∀ b ∈ planAux tok budget qs cur curTok,
        ∀ u ∈ b, budget < (tok u : Int) → b = [u] := by
  intro qs
  induction qs with
  | nil =>
    intro cur curTok _ hinv b hb
    by_cases h : cur = []
    · simp [planAux, h] at hb
    · simp [planAux, h] at hb
      subst hb
      exact hinv
  | cons q qs ih =>
    intro cur curTok hcost hinv b hb
    by_cases h : ((curTok : Int) + tok q > budget) ∧ cur ≠ []
    · simp only [planAux, if_pos h, List.mem_cons] at hb
      rcases hb with rfl | hb
      · exact hinv
      · refine ih [q] (tok q) (by simp [batchCost]) ?_ b hb
        intro u hu _
        simp only [List.mem_singleton] at hu
        subst hu
        rfl
    · simp only [planAux, if_neg h] at hb
      rcases Decidable.not_and_iff_or_not.mp h with h1 | h2
      · -- the next unit still fits: everything in the extended batch has
        -- cost bounded by the (≤ budget) running total, so no member is
        -- oversized and the invariant holds vacuously
        have hfit : ((curTok : Int) + tok q ≤ budget) := by omega
        refine ih (cur ++ [q]) (curTok + tok q)
          (by rw [batchCost_append, hcost]) ?_ b hb
        intro u hu hover
        exfalso
        have hle : tok u ≤ batchCost tok (cur ++ [q]) := le_batchCost_of_mem tok hu
        rw [batchCost_append, ← hcost] at hle
        have : (tok u : Int) ≤ (curTok : Int) + tok q := by exact_mod_cast hle
        omega
      · have hcur : cur = [] := by
          by_cases hc : cur = []
          · exact hc
          · exact absurd hc (by simpa using h2)
        subst hcur
        have h0 : curTok = 0 := by simpa [batchCost] using hcost
        subst h0
        simp only [List.nil_append, Nat.zero_add] at hb
        refine ih [q] (tok q) (by simp [batchCost]) ?_ b hb
        intro u hu _
        simp only [List.mem_singleton] at hu
        subst hu
        rfl

/-- Claim C5: a unit whose estimated token cost alone exceeds the budget ends
up alone in its own batch: the batch containing it is the singleton of that
unit (and by `plan_partition` it is never dropped, split or duplicated). -/
theorem plan_oversized_alone (tok : String → Nat) (budget : Int)
    (questions : List String) (b : List String) (u : String)
    (hb : b ∈ planBatches tok budget questions) (hu : u ∈ b)
    (hover : budget < (tok u : Int)) : b = [u] :=
  planAux_oversized tok budget questions [] 0 (by simp [batchCost])
    (by intro v hv; cases hv) b hb u hu hover

/-- Witness for `plan_oversized_alone`: cost 3 unit against budget 2. -/
theorem plan_oversized_alone_witness : (["bcd"] : List String) = ["bcd"] :=
  plan_oversized_alone String.length 2 ["a", "bcd", "e"] ["bcd"] "bcd"
    (by decide) (by decide) (by decide)

/-! ## JSON values (`json_processor.py` data)

Parsed JSON data as handled by `JSONProcessor`: objects are Python dicts,
modelled as insertion-ordered association lists (Python dicts have unique
keys; where a function relies on that, the uniqueness shows up as an
explicit `Nodup` hypothesis). -/

inductive JVal where
  | jstr (s : String)
  | jbool (b : Bool)
  | jnum (n : Int)
  | jarr (xs : List JVal)
  | jobj (fields : List (String × JVal))

/-- Python dict assignment `m[k] = v`: an existing key keeps its position
and gets the new value, a fresh key is appended at the end. -/
def dictSet (m : List (String × JVal)) (k : String) (v : JVal) :
    List (String × JVal) :=
  if m.any (fun p => p.1 = k) then
    m.map (fun p => if p.1 = k then (k, v) else p)
  else
    m ++ [(k, v)]

/-- Python truthiness of a JSON value (`if processed_item:` and
`if processed_data:` in `process_json`). -/
def jvalTruthy : JVal → Bool
  | .jstr s => s ≠ ""
  | .jbool b => b
  | .jnum n => n ≠ 0
  | .jarr xs => !xs.isEmpty
  | .jobj m => !m.isEmpty

/-- Python `str.upper` (the claims only exercise the ASCII range):
uppercase every character. Implemented directly on the character list so
that concrete instances evaluate by kernel reduction. -/
def pyUpper (s : String) : String := ⟨s.data.map Char.toUpper⟩

/-! ## `JSONProcessor._format_options` and `_format_answer`

Fallible formatting: a `ValueError` (or an `AttributeError`/`TypeError`
escaping from the duck-typed branches) is an `Except.error`; the caller
`_process_single_item` catches all of them alike. -/

/-- Embedding of `_format_options`: a list becomes a dict keyed by `chr(65+i)` for the
indices `i < 26` (the dict comprehension keeps at most the first 26
entries); a dict gets every key uppercased (`k.upper()`, later entries
overwriting earlier ones on collision, as in the Python dict
comprehension); anything else raises `ValueError`. -/
def formatOptions : JVal → Except String JVal
  | .jarr xs =>
      .ok (.jobj (((xs.enum.filter (fun p => p.1 < 26))).foldl
        (fun m p => dictSet m (String.singleton (Char.ofNat (65 + p.1))) p.2) []))
  | .jobj fields =>
      .ok (.jobj (fields.foldl (fun m p => dictSet m (pyUpper p.1) p.2) []))
  | _ => .error "选项格式不正确"

/-- Embedding of `_format_answer`: a string is uppercased, a list has every element
uppercased (a non-string element raises `AttributeError` on `.upper()`),
a boolean passes through, anything else raises `ValueError`. -/
def formatAnswer : JVal → Except String JVal
  | .jstr s => .ok (.jstr (pyUpper s))
  | .jarr xs =>
      Except.map JVal.jarr (xs.mapM (fun x => match x with
        | .jstr s => Except.ok (JVal.jstr (pyUpper s))
        | _ => Except.error "AttributeError"))
  | .jbool b => .ok (.jbool b)
  | _ => .error "答案格式不正确"

/-! ## `JSONProcessor._validate_json` and the single-choice validator

`_validate_json` delegates to `jsonschema.Draft7Validator.validate`, which
raises on the first violated constraint. A schema validator is embedded as
`JVal → Option String` (`none` = valid, `some msg` = the first violation's
message; only presence/absence of errors matters to the claims, the exact
jsonschema message text is not reproduced). -/

/-- The regex `^[A-E]$` of the default single-choice schema, under the
semantics of jsonschema's `pattern` keyword: Python `re.search`, where `^`
anchors at the start of the string and `$` matches at the end of the
string or just before one trailing newline. Accepted strings are exactly a
single character `A`–`E`, optionally followed by one `\n`. -/
def matchAE (s : String) : Bool :=
  match s.toList with
  | [c] => decide ('A' ≤ c) && decide (c ≤ 'E')
  | [c, n] => decide ('A' ≤ c) && decide (c ≤ 'E') && decide (n = '\n')
  | _ => false

/-- Draft-7 validation against the default `single_choice` schema of
`SchemaManager._get_default_schemas`:
`type: object`; `properties`: `question` a string, `options` an object with
`patternProperties {"^[A-E]$": string}`, `minProperties 2`,
`maxProperties 5`, `answer` a string matching `^[A-E]$`, `analysis` a
string; `required: [question, options, answer]`;
`additionalProperties: false`. Property sub-schemas constrain a key only
when it is present; `patternProperties` constrains only the matching keys
of `options` (the schema sets no `additionalProperties` inside `options`,
so non-matching option keys are unconstrained). -/
def scValidator : JVal → Option String
  | .jobj fields =>
      (match fields.lookup "question" with
       | some (.jstr _) => none
       | some _ => some "question is not of type string"
       | none => none) <|>
      (match fields.lookup "options" with
       | some (.jobj m) =>
           (m.findSome? (fun p =>
              if matchAE p.1 then
                match p.2 with
                | .jstr _ => none
                | _ => some ("options." ++ p.1 ++ " is not of type string")
              else none)) <|>
           (if m.length < 2 then some "options has fewer than 2 properties" else none) <|>
           (if 5 < m.length then some "options has more than 5 properties" else none)
       | some _ => some "options is not of type object"
       | none => none) <|>
      (match fields.lookup "answer" with
       | some (.jstr s) =>
           if matchAE s then none else some "answer does not match ^[A-E]$"
       | some _ => some "answer is not of type string"
       | none => none) <|>
      (match fields.lookup "analysis" with
       | some (.jstr _) => none
       | some _ => some "analysis is not of type string"
       | none => none) <|>
      (if (fields.lookup "question").isNone then some "question is a required property"
       else if (fields.lookup "options").isNone then some "options is a required property"
       else if (fields.lookup "answer").isNone then some "answer is a required property"
       else none) <|>
      (fields.findSome? (fun p =>
        if p.1 ∈ (["question", "options", "answer", "analysis"] : List String) then none
        else some ("additional property " ++ p.1 ++ " is not allowed")))
  | _ => some "data is not of type object"

/-- The first `ValidationError` raised inside the `try` of `_validate_json`:
a list is validated element by element (the first failure raises), anything
else is validated directly. -/
def firstValidationError (validator : JVal → Option String) (data : JVal) :
    Option String :=
  match data with
  | .jarr items => items.findSome? validator
  | d => validator d

/-- Embedding of `_validate_json`: resets `self.errors` to `[]`, validates (each element
of a list, stopping at the first failure, or the single value), and on a
`ValidationError` appends its message to the freshly cleared list. The
returned pair is (new `self.errors`, return value); the incoming error list
is deliberately ignored, mirroring the reset in the source. -/
def validateJsonSt (validator : JVal → Option String) (_errs : List String)
    (data : JVal) : List String × Bool :=
  match firstValidationError validator data with
  | some e => ([e], false)
  | none => ([], true)

/-! ## `JSONProcessor._process_single_item` and `process_json` -/

/-- The two in-place formatting updates of `_process_single_item` on a dict
item: `processed_item["options"] = self._format_options(...)` when the key
is present, then the same for `answer`; the first raised exception wins. -/
def formatItemFields (fields : List (String × JVal)) :
    Except String (List (String × JVal)) :=
  match (match fields.lookup "options" with
         | some ov => (formatOptions ov).map (fun fo => dictSet fields "options" fo)
         | none => Except.ok fields) with
  | .error msg => .error msg
  | .ok fields1 =>
    match fields1.lookup "answer" with
    | some av => (formatAnswer av).map (fun fa => dictSet fields1 "answer" fa)
    | none => .ok fields1

/-- Embedding of `_process_single_item`: copy the item, format `options` and `answer` in
place when present, then `_validate_json`; any exception from the
formatting (or from `.copy()`/indexing on a non-dict item) is caught and
appended to `self.errors`, yielding `None`. The pair is (new `self.errors`,
returned value). A non-dict item either raises `AttributeError` at
`item.copy()` (strings, numbers, booleans) or, for a list, raises
`TypeError` at `processed_item["options"]` when the membership test
`"options" in processed_item` (or `"answer"`) succeeds; a list containing
neither string goes straight to `_validate_json`. -/
def processSingleItem (validator : JVal → Option String) (errs : List String)
    (item : JVal) : List String × Option JVal :=
  match item with
  | .jobj fields =>
    match formatItemFields fields with
    | .error msg => (errs ++ ["处理项目失败：" ++ msg], none)
    | .ok fields2 =>
      match validateJsonSt validator errs (.jobj fields2) with
      | (errs2, true) => (errs2, some (.jobj fields2))
      | (errs2, false) => (errs2, none)
  | .jarr xs =>
      if xs.any (fun x => match x with | .jstr t => t = "options" || t = "answer" | _ => false) then
        (errs ++ ["处理项目失败：TypeError"], none)
      else
        match validateJsonSt validator errs (.jarr xs) with
        | (errs2, true) => (errs2, some (.jarr xs))
        | (errs2, false) => (errs2, none)
  | _ => (errs ++ ["处理项目失败：AttributeError"], none)

/-- One iteration of the `for item in data` loop of `process_json`: process
the item against the running error state and append the result to
`processed_data` when it is truthy (`if processed_item:`). -/
def processFoldStep (validator : JVal → Option String)
    (acc : List String × List JVal) (item : JVal) : List String × List JVal :=
  match processSingleItem validator acc.1 item with
  | (errs2, some v) => if jvalTruthy v then (errs2, acc.2 ++ [v]) else (errs2, acc.2)
  | (errs2, none) => (errs2, acc.2)

/-- Embedding of `process_json` after `json.loads` succeeded (the parse itself is the
external `json` library; the claims about `process_json` quantify over
already-parsed data): a list is processed item by item, keeping the truthy
results, returning `None` for an empty result list; anything else is
processed as a single item. -/
def processJsonData (validator : JVal → Option String) (errs : List String)
    (data : JVal) : List String × Option JVal :=
  match data with
  | .jarr items =>
      match items.foldl (processFoldStep validator) (errs, []) with
      | (errs2, out) => (errs2, if out.isEmpty then none else some (.jarr out))
  | d => processSingleItem validator errs d

/-! ## `JSONProcessor.process_ai_response`

`validate_json(item, schema)` raises `ValueError` on the first invalid
item; `process_ai_response` unwraps an `items` field holding a list,
wraps a bare object into a one-element list, rejects non-object/non-list
data, validates every element and rejects an empty result; every raised
error is re-wrapped by the outer handler. -/
/-- The response-shape dispatch at the top of `process_ai_response`: a dict
whose `items` key holds a list is replaced by that list, any other dict is
wrapped in a one-element list, a list is taken as is, anything else raises
`ValueError`. -/
def unwrapResponse (response : JVal) : Except String (List JVal) :=
  match response with
  | .jobj fields =>
      match fields.lookup "items" with
      | some (.jarr xs) => .ok xs
      | _ => .ok [.jobj fields]
  | .jarr xs => .ok xs
  | _ => .error "AI返回的数据必须是对象或数组"

def processAiResponse (validator : JVal → Option String) (response : JVal) :
    Except String (List JVal) :=
  match unwrapResponse response with
  | .error msg => .error ("处理AI响应失败: " ++ msg)
  | .ok items =>
    match items.findSome? validator with
    | some e => .error ("处理AI响应失败: " ++ ("JSON验证失败: " ++ e))
    | none =>
      if items.isEmpty then .error ("处理AI响应失败: " ++ "没有找到有效的试题数据")
      else .ok items

/-! ## Concrete single-choice records used by witnesses and refutations -/

/-- A single-choice record missing the required `answer` field. -/
def badRecord : JVal :=
  .jobj [("question", .jstr "q1"),
         ("options", .jobj [("a", .jstr "x"), ("b", .jstr "y")])]

/-- A valid single-choice record (its lowercase answer gets uppercased). -/
def goodRecord : JVal :=
  .jobj [("question", .jstr "q2"),
         ("options", .jobj [("A", .jstr "x"), ("B", .jstr "y")]),
         ("answer", .jstr "a")]

/-- A second valid single-choice record. -/
def goodRecord2 : JVal :=
  .jobj [("question", .jstr "q3"),
         ("options", .jobj [("A", .jstr "u"), ("B", .jstr "w")]),
         ("answer", .jstr "B")]

/-- A record that passes Draft-7 validation of the default single-choice
schema although its option keys `A`, `C` are not a contiguous range
starting at `A` and its answer `B` is not among its option keys. -/
def nonContiguousRecord : JVal :=
  .jobj [("question", .jstr "q"),
         ("options", .jobj [("A", .jstr "x"), ("C", .jstr "y")]),
         ("answer", .jstr "B")]

/-! ## C2: error accumulation -/

lemma validateJsonSt_result (v : JVal → Option String) (errs : List String)
    (d : JVal) :
    validateJsonSt v errs d = ([], true) ∨
      ∃ e, validateJsonSt v errs d = ([e], false) := by
  unfold validateJsonSt
  cases h : firstValidationError v d with
  | none => exact Or.inl rfl
  | some e => exact Or.inr ⟨e, rfl⟩

/-- Refutation of claim C2 as stated: processing the batch
`[badRecord, goodRecord]` records a validation error for the first record,
but after the second record of the same batch is validated the processor's
error list is empty again — the earlier error was discarded without being
explicitly cleared by the caller. -/
theorem errors_accumulation_counterexample :
    (processSingleItem scValidator [] badRecord).1 =
      ["answer is a required property"] ∧
    (processJsonData scValidator [] (.jarr [badRecord, goodRecord])).1 = [] := by
  exact ⟨rfl, rfl⟩

/-- Claim C2 (amended): `_validate_json` resets `self.errors` on every call:
its result is independent of all previously recorded errors, and it leaves
at most the one error of the current validation, so errors recorded for
earlier records of a batch are gone after a later record of the same batch
is validated. -/
theorem validate_json_resets_errors (v : JVal → Option String)
    (errs errs' : List String) (d : JVal) :
    validateJsonSt v errs d = validateJsonSt v errs' d ∧
    ((validateJsonSt v errs d).1 = [] ∨ ∃ e, (validateJsonSt v errs d).1 = [e]) := by
  refine ⟨rfl, ?_⟩
  rcases validateJsonSt_result v errs d with h | ⟨e, h⟩
  · exact Or.inl (by rw [h])
  · exact Or.inr ⟨e, by rw [h]⟩

/-! ## C6: per-record fault isolation in `process_json` -/

/-- The contribution of one item to `process_json`'s output list: its
processed value, when that value is truthy. -/
def keepResult (validator : JVal → Option String) (item : JVal) : Option JVal :=
  match (processSingleItem validator [] item).2 with
  | some v => if jvalTruthy v then some v else none
  | none => none

lemma processSingleItem_snd_indep (v : JVal → Option String) (errs : List String)
    (item : JVal) :
    (processSingleItem v errs item).2 = (processSingleItem v [] item).2 := by
  have hv : validateJsonSt v errs = validateJsonSt v [] := rfl
  cases item with
  | jobj fields =>
    simp only [processSingleItem, hv]
    cases formatItemFields fields <;> rfl
  | jarr xs =>
    simp only [processSingleItem, hv]
    by_cases hc : (xs.any (fun x => match x with
        | .jstr t => t = "options" || t = "answer" | _ => false)) = true <;>
      simp [hc]
  | jstr s => rfl
  | jbool b => rfl
  | jnum n => rfl

lemma processSingleItem_err_of_none (v : JVal → Option String) (item : JVal)
    (h : (processSingleItem v [] item).2 = none) :
    (processSingleItem v [] item).1 ≠ [] := by
  cases item with
  | jobj fields =>
    simp only [processSingleItem] at h ⊢
    cases hf : formatItemFields fields with
    | error msg => simp
    | ok f2 =>
      simp only [hf] at h ⊢
      rcases validateJsonSt_result v ([] : List String) (.jobj f2) with h2 | ⟨e, h2⟩
      · rw [h2] at h
        simp at h
      · rw [h2]
        simp
  | jarr xs =>
    simp only [processSingleItem] at h ⊢
    by_cases hc : (xs.any (fun x => match x with
        | .jstr t => t = "options" || t = "answer" | _ => false)) = true
    · simp [hc]
    · simp only [if_neg hc] at h ⊢
      rcases validateJsonSt_result v ([] : List String) (.jarr xs) with h2 | ⟨e, h2⟩
      · rw [h2] at h
        simp at h
      · rw [h2]
        simp
  | jstr s => simp [processSingleItem]
  | jbool b => simp [processSingleItem]
  | jnum n => simp [processSingleItem]

lemma processFoldStep_snd (v : JVal → Option String)
    (acc : List String × List JVal) (item : JVal) :
    (processFoldStep v acc item).2 = acc.2 ++ (keepResult v item).toList := by
  simp only [processFoldStep, keepResult]
  rcases hp : processSingleItem v acc.1 item with ⟨e2, r⟩
  have hr : (processSingleItem v [] item).2 = r := by
    rw [← processSingleItem_snd_indep v acc.1 item, hp]
  rw [hr]
  cases r with
  | none => simp
  | some x => by_cases ht : jvalTruthy x = true <;> simp [ht]

lemma processFold_out (v : JVal → Option String) :
    ∀ (items : List JVal) (errs0 : List String) (acc : List JVal),
      (items.foldl (processFoldStep v) (errs0, acc)).2 =
        acc ++ items.filterMap (keepResult v) := by
  intro items
  induction items with
  | nil => intro errs0 acc; simp
  | cons it its ih =>
    intro errs0 acc
    rw [List.foldl_cons, List.filterMap_cons]
    rcases hs : processFoldStep v (errs0, acc) it with ⟨errs1, acc1⟩
    have hsnd : acc1 = acc ++ (keepResult v it).toList := by
      have := processFoldStep_snd v (errs0, acc) it
      rw [hs] at this
      exact this
    subst hsnd
    rw [ih errs1 _]
    cases h : keepResult v it <;> simp [h]

lemma processJsonData_arr_out (v : JVal → Option String) (errs : List String)
    (items : List JVal) :
    (processJsonData v errs (.jarr items)).2 =
      (if (items.filterMap (keepResult v)).isEmpty then none
       else some (.jarr (items.filterMap (keepResult v)))) := by
  have hout := processFold_out v items errs []
  simp only [processJsonData]
  rcases hf : items.foldl (processFoldStep v) (errs, []) with ⟨e2, out⟩
  rw [hf] at hout
  simp only [List.nil_append] at hout
  subst hout
  rfl

lemma length_filterMap_of_isSome {α β : Type} (f : α → Option β) :
    ∀ (l : List α), (∀ x ∈ l, (f x).isSome = true) →
      (l.filterMap f).length = l.length := by
  intro l
  induction l with
  | nil => intro _; rfl
  | cons x xs ih =>
    intro h
    rcases hx : f x with _ | y
    · exact absurd (h x (by simp)) (by simp [hx])
    · rw [List.filterMap_cons, hx]
      simp only [List.length_cons]
      rw [ih (fun z hz => h z (by simp [hz]))]

/-- Claim C6: if in a parsed top-level sequence of records exactly one record
fails (its processing yields `None`), then: the output is exactly the
processed valid siblings, in order, with nothing else lost (one output per
sibling), and processing the failing record records an error. -/
theorem process_json_fault_isolation (v : JVal → Option String)
    (pre post : List JVal) (bad : JVal)
    (hbad : (processSingleItem v [] bad).2 = none)
    (hsib : ∀ it ∈ pre ++ post, (keepResult v it).isSome = true)
    (hne : pre ++ post ≠ []) :
    (processJsonData v [] (.jarr (pre ++ bad :: post))).2 =
      some (.jarr ((pre ++ post).filterMap (keepResult v))) ∧
    ((pre ++ post).filterMap (keepResult v)).length = (pre ++ post).length ∧
    (processSingleItem v [] bad).1 ≠ [] := by
  have hkbad : keepResult v bad = none := by
    unfold keepResult
    rw [hbad]
  have hfm : (pre ++ bad :: post).filterMap (keepResult v)
      = (pre ++ post).filterMap (keepResult v) := by
    rw [List.filterMap_append, List.filterMap_cons, hkbad, List.filterMap_append]
  have hlen : ((pre ++ post).filterMap (keepResult v)).length = (pre ++ post).length :=
    length_filterMap_of_isSome (keepResult v) (pre ++ post) hsib
  have hnonempty : ((pre ++ post).filterMap (keepResult v)).isEmpty = false := by
    rcases List.exists_mem_of_ne_nil _ hne with ⟨x, _⟩
    have : 0 < ((pre ++ post).filterMap (keepResult v)).length := by
      rw [hlen]
      exact List.length_pos.mpr hne
    cases hE : ((pre ++ post).filterMap (keepResult v)) with
    | nil => rw [hE] at this; simp at this
    | cons a l => simp
  refine ⟨?_, hlen, processSingleItem_err_of_none v bad hbad⟩
  rw [processJsonData_arr_out, hfm, hnonempty]
  simp

/-- Witness for `process_json_fault_isolation`: a batch of a valid record,
then `badRecord` (missing `answer`), then another valid record. -/
theorem process_json_fault_isolation_witness :
    (processJsonData scValidator [] (.jarr [goodRecord, badRecord, goodRecord2])).2 =
      some (.jarr (([goodRecord] ++ [goodRecord2]).filterMap (keepResult scValidator))) ∧
    (([goodRecord] ++ [goodRecord2]).filterMap (keepResult scValidator)).length =
      ([goodRecord] ++ [goodRecord2]).length ∧
    (processSingleItem scValidator [] badRecord).1 ≠ [] :=
  process_json_fault_isolation scValidator [goodRecord] [goodRecord2] badRecord
    rfl (by decide) (by simp)

/-! ## C8: `items` wrapper unwrapping -/

/-- Claim C8: a single object response containing an `items` field that holds
a sequence is processed by `process_ai_response` exactly as that unwrapped
sequence of records — not as one wrapper record. -/
theorem process_ai_response_unwraps_items (v : JVal → Option String)
    (fields : List (String × JVal)) (xs : List JVal)
    (h : fields.lookup "items" = some (.jarr xs)) :
    processAiResponse v (.jobj fields) = processAiResponse v (.jarr xs) := by
  have hu : unwrapResponse (.jobj fields) = unwrapResponse (.jarr xs) := by
    simp only [unwrapResponse, h]
  simp only [processAiResponse, hu]

/-- Witness for `process_ai_response_unwraps_items`: one wrapped record. -/
theorem process_ai_response_unwraps_items_witness :
    processAiResponse scValidator (.jobj [("items", .jarr [goodRecord])]) =
      processAiResponse scValidator (.jarr [goodRecord]) :=
  process_ai_response_unwraps_items scValidator
    [("items", .jarr [goodRecord])] [goodRecord] rfl

/-! ## C9: the NormalizedRecord data-model invariant -/

/-- Spec-side reading of the data-model invariant (spec §3): the option
keys are single uppercase letters forming a contiguous range starting at
`A`, i.e. every letter `chr(65+i)` for `i` below the number of options
occurs among the keys. -/
def specOptionKeysContiguous (m : List (String × JVal)) : Bool :=
  (List.range m.length).all
    (fun i => (m.map Prod.fst).contains (String.singleton (Char.ofNat (65 + i))))

/-- Spec-side reading: answer letters (when the answer is a string or an
array) must reference keys present in `options`. -/
def specAnswerRefsOptions (fields m : List (String × JVal)) : Bool :=
  match fields.lookup "answer" with
  | some (.jstr s) => (m.map Prod.fst).contains s
  | some (.jarr xs) => xs.all (fun x => match x with
      | .jstr t => (m.map Prod.fst).contains t
      | _ => false)
  | _ => true

/-- Spec-side reading of the full NormalizedRecord invariant of spec §3. -/
def specNormalizedInvariant (r : JVal) : Bool :=
  match r with
  | .jobj fields =>
    match fields.lookup "options" with
    | some (.jobj m) => specOptionKeysContiguous m && specAnswerRefsOptions fields m
    | _ => true
  | _ => true

/-- Refutation of claim C9 as stated: `nonContiguousRecord` is returned
unchanged by the normalize-and-validate pipeline (its options keys A, C and
answer `"B"` satisfy the Draft-7 schema, which has no contiguity or
answer-membership constraint), yet it violates both parts of the claimed
data-model invariant. -/
theorem normalized_record_invariant_counterexample :
    (processSingleItem scValidator [] nonContiguousRecord).2 =
      some nonContiguousRecord ∧
    specNormalizedInvariant nonContiguousRecord = false :=
  ⟨rfl, rfl⟩

lemma option_orElse_eq_none {a b : Option String} (h : (a <|> b) = none) :
    a = none ∧ b = none := by
  cases a <;> simp_all

lemma validateJsonSt_obj_true (v : JVal → Option String) (errs : List String)
    (f : List (String × JVal))
    (h : (validateJsonSt v errs (.jobj f)).2 = true) : v (.jobj f) = none := by
  simp only [validateJsonSt, firstValidationError] at h
  cases hv : v (.jobj f) with
  | none => rfl
  | some e =>
    rw [hv] at h
    simp at h

lemma processSingleItem_obj_valid (v : JVal → Option String) (errs : List String)
    (item : JVal) (fields : List (String × JVal))
    (h : (processSingleItem v errs item).2 = some (.jobj fields)) :
    v (.jobj fields) = none := by
  cases item with
  | jobj f0 =>
    simp only [processSingleItem] at h
    cases hf : formatItemFields f0 with
    | error msg =>
      simp only [hf] at h
      simp at h
    | ok f2 =>
      simp only [hf] at h
      rcases validateJsonSt_result v errs (.jobj f2) with h2 | ⟨e, h2⟩
      · rw [h2] at h
        simp at h
        have hval := validateJsonSt_obj_true v errs f2 (by rw [h2])
        rwa [← h]
      · rw [h2] at h
        simp at h
  | jarr xs =>
    simp only [processSingleItem] at h
    by_cases hc : (xs.any (fun x => match x with
        | .jstr t => t = "options" || t = "answer" | _ => false)) = true
    · simp [hc] at h
    · simp only [if_neg hc] at h
      rcases validateJsonSt_result v errs (.jarr xs) with h2 | ⟨e, h2⟩
      · rw [h2] at h
        simp at h
      · rw [h2] at h
        simp at h
  | jstr s => simp [processSingleItem] at h
  | jbool b => simp [processSingleItem] at h
  | jnum n => simp [processSingleItem] at h

lemma scValidator_none_props (fields : List (String × JVal))
    (h : scValidator (.jobj fields) = none) :
    (∃ s, fields.lookup "answer" = some (.jstr s) ∧ matchAE s = true) ∧
    (∃ m, fields.lookup "options" = some (.jobj m) ∧
       2 ≤ m.length ∧ m.length ≤ 5 ∧
       ∀ p ∈ m, matchAE p.1 = true → ∃ t, p.2 = JVal.jstr t) := by
  simp only [scValidator] at h
  obtain ⟨hq, h⟩ := option_orElse_eq_none h
  obtain ⟨hopt, h⟩ := option_orElse_eq_none h
  obtain ⟨hans, h⟩ := option_orElse_eq_none h
  obtain ⟨hana, h⟩ := option_orElse_eq_none h
  obtain ⟨hreq, hadd⟩ := option_orElse_eq_none h
  have hoptS : (fields.lookup "options").isNone = false := by
    by_contra hcon
    simp only [Bool.not_eq_false] at hcon
    by_cases hq0 : (fields.lookup "question").isNone = true
    · rw [if_pos hq0] at hreq
      exact absurd hreq (by simp)
    · rw [if_neg hq0, if_pos hcon] at hreq
      exact absurd hreq (by simp)
  have hansS : (fields.lookup "answer").isNone = false := by
    by_contra hcon
    simp only [Bool.not_eq_false] at hcon
    by_cases hq0 : (fields.lookup "question").isNone = true
    · rw [if_pos hq0] at hreq
      exact absurd hreq (by simp)
    · rw [if_neg hq0] at hreq
      by_cases ho0 : (fields.lookup "options").isNone = true
      · rw [if_pos ho0] at hreq
        exact absurd hreq (by simp)
      · rw [if_neg ho0, if_pos hcon] at hreq
        exact absurd hreq (by simp)
  constructor
  · rcases ha : fields.lookup "answer" with _ | av
    · rw [ha] at hansS
      simp at hansS
    · rw [ha] at hans
      cases av with
      | jstr s =>
        refine ⟨s, rfl, ?_⟩
        by_cases hm : matchAE s = true
        · exact hm
        · simp [hm] at hans
      | jbool b => simp at hans
      | jnum n => simp at hans
      | jarr xs => simp at hans
      | jobj m => simp at hans
  · rcases ho : fields.lookup "options" with _ | ov
    · rw [ho] at hoptS
      simp at hoptS
    · rw [ho] at hopt
      cases ov with
      | jobj m =>
        simp only [] at hopt
        obtain ⟨hpat, hrest⟩ := option_orElse_eq_none hopt
        obtain ⟨hmin, hmax⟩ := option_orElse_eq_none hrest
        refine ⟨m, rfl, ?_, ?_, ?_⟩
        · by_cases hlt : m.length < 2
          · rw [if_pos hlt] at hmin
            exact absurd hmin (by simp)
          · omega
        · by_cases hgt : 5 < m.length
          · rw [if_pos hgt] at hmax
            exact absurd hmax (by simp)
          · omega
        · intro p hp hmae
          have hpnone := List.findSome?_eq_none_iff.mp hpat p hp
          simp only [hmae, if_true] at hpnone
          cases hv2 : p.2 with
          | jstr t => exact ⟨t, rfl⟩
          | jbool b => rw [hv2] at hpnone; simp at hpnone
          | jnum n => rw [hv2] at hpnone; simp at hpnone
          | jarr xs => rw [hv2] at hpnone; simp at hpnone
          | jobj m2 => rw [hv2] at hpnone; simp at hpnone
      | jstr s => simp at hopt
      | jbool b => simp at hopt
      | jnum n => simp at hopt
      | jarr xs => simp at hopt

/-- Claim C9 (amended): every object record returned by
`_process_single_item` under the default single-choice schema has an
`answer` accepted by the schema pattern `^[A-E]$` under Python `re.search`
semantics — a single uppercase letter `A`–`E`, optionally followed by one
trailing newline — and an `options` object with 2–5 entries in which every
key matching that pattern holds a string; the schema does not force the
option keys to be a contiguous range starting at `A`, nor the answer to be
one of the option keys (`normalized_record_invariant_counterexample`). -/
theorem normalized_record_invariant_amended (errs : List String) (item : JVal)
    (fields : List (String × JVal))
    (h : (processSingleItem scValidator errs item).2 = some (.jobj fields)) :
    (∃ s, fields.lookup "answer" = some (.jstr s) ∧ matchAE s = true) ∧
    (∃ m, fields.lookup "options" = some (.jobj m) ∧
       2 ≤ m.length ∧ m.length ≤ 5 ∧
       ∀ p ∈ m, matchAE p.1 = true → ∃ t, p.2 = JVal.jstr t) :=
  scValidator_none_props fields
    (processSingleItem_obj_valid scValidator errs item fields h)

/-- Witness for `normalized_record_invariant_amended` at `goodRecord`. -/
theorem normalized_record_invariant_amended_witness :
    (∃ s, [("question", JVal.jstr "q2"),
           ("options", JVal.jobj [("A", JVal.jstr "x"), ("B", JVal.jstr "y")]),
           ("answer", JVal.jstr "A")].lookup "answer" = some (.jstr s) ∧
         matchAE s = true) ∧
    (∃ m, [("question", JVal.jstr "q2"),
           ("options", JVal.jobj [("A", JVal.jstr "x"), ("B", JVal.jstr "y")]),
           ("answer", JVal.jstr "A")].lookup "options" = some (.jobj m) ∧
       2 ≤ m.length ∧ m.length ≤ 5 ∧
       ∀ p ∈ m, matchAE p.1 = true → ∃ t, p.2 = JVal.jstr t) :=
  normalized_record_invariant_amended [] goodRecord
    [("question", JVal.jstr "q2"),
     ("options", JVal.jobj [("A", JVal.jstr "x"), ("B", JVal.jstr "y")]),
     ("answer", JVal.jstr "A")] rfl

/-! ## C7 and C10: `_format_options` / `_format_answer` -/

lemma dictSet_fresh (m : List (String × JVal)) (k : String) (v : JVal)
    (h : ∀ q ∈ m, q.1 ≠ k) : dictSet m k v = m ++ [(k, v)] := by
  have hc : (m.any fun p => decide (p.1 = k)) = false := by
    rw [List.any_eq_false]
    intro p hp
    simpa using h p hp
  simp [dictSet, hc]

lemma foldl_dictSet_fresh {α : Type} (kf : α → String) (vf : α → JVal) :
    ∀ (ps : List α) (acc : List (String × JVal)),
      (ps.map kf).Nodup →
      (∀ a ∈ ps, ∀ q ∈ acc, q.1 ≠ kf a) →
      ps.foldl (fun m a => dictSet m (kf a) (vf a)) acc
        = acc ++ ps.map (fun a => (kf a, vf a)) := by
  intro ps
  induction ps with
  | nil =>
    intro acc _ _
    simp
  | cons a ps ih =>
    intro acc hnd hdisj
    simp only [List.map_cons, List.nodup_cons] at hnd
    rw [List.foldl_cons,
      dictSet_fresh acc (kf a) (vf a) (fun q hq => hdisj a (by simp) q hq)]
    have hdisj2 : ∀ b ∈ ps, ∀ q ∈ acc ++ [(kf a, vf a)], q.1 ≠ kf b := by
      intro b hb q hq
      rcases List.mem_append.mp hq with hqa | hqa
      · exact hdisj b (List.mem_cons_of_mem a hb) q hqa
      · have hq1 : q = (kf a, vf a) := by simpa using hqa
        subst hq1
        intro hEq
        apply hnd.1
        have hEq2 : kf a = kf b := hEq
        rw [hEq2]
        exact List.mem_map_of_mem kf hb
    rw [ih (acc ++ [(kf a, vf a)]) hnd.2 hdisj2]
    simp

lemma enumFrom_filter_lt26 :
    ∀ (xs : List JVal) (n : Nat),
      (List.enumFrom n xs).filter (fun p => p.1 < 26)
        = List.enumFrom n (xs.take (26 - n)) := by
  intro xs
  induction xs with
  | nil =>
    intro n
    simp
  | cons x xs ih =>
    intro n
    by_cases hn : n < 26
    · have h26 : 26 - n = (26 - (n + 1)) + 1 := by omega
      rw [h26]
      simp only [List.take_succ_cons, List.enumFrom_cons, List.filter_cons]
      rw [if_pos (by simpa using hn), ih (n + 1)]
    · have h26 : 26 - n = 0 := by omega
      have h26' : 26 - (n + 1) = 0 := by omega
      rw [h26]
      simp only [List.take_zero, List.enumFrom_cons, List.filter_cons, List.enumFrom_nil]
      rw [if_neg (by simpa using hn)]
      have := ih (n + 1)
      rw [h26'] at this
      simpa using this

/-- The 26 candidate option keys `A`..`Z` are pairwise distinct. -/
lemma letterKeys_nodup :
    ((List.range 26).map (fun i => String.singleton (Char.ofNat (65 + i)))).Nodup := by
  decide

lemma formatOptions_list_eq (xs : List JVal) :
    formatOptions (.jarr xs) =
      .ok (.jobj ((xs.take 26).enum.map
        (fun p => (String.singleton (Char.ofNat (65 + p.1)), p.2)))) := by
  have hfil : xs.enum.filter (fun p => p.1 < 26) = (xs.take 26).enum := by
    have h := enumFrom_filter_lt26 xs 0
    simpa [List.enum] using h
  have hkeys : ((xs.take 26).enum.map
      (fun p : Nat × JVal => String.singleton (Char.ofNat (65 + p.1)))).Nodup := by
    have h1 : (xs.take 26).enum.map
        (fun p : Nat × JVal => String.singleton (Char.ofNat (65 + p.1)))
        = ((xs.take 26).enum.map Prod.fst).map
            (fun i => String.singleton (Char.ofNat (65 + i))) := by
      rw [List.map_map]
      rfl
    rw [h1, List.enum_map_fst]
    have hsub : List.Sublist (List.range (xs.take 26).length) (List.range 26) :=
      List.range_sublist.mpr (by simp)
    exact letterKeys_nodup.sublist
      (hsub.map (fun i => String.singleton (Char.ofNat (65 + i))))
  have hfold := foldl_dictSet_fresh
    (fun p : Nat × JVal => String.singleton (Char.ofNat (65 + p.1))) Prod.snd
    ((xs.take 26).enum) [] hkeys (by intro a _ q hq; cases hq)
  simp only [formatOptions, hfil]
  rw [hfold]
  simp

lemma mem_dictSet {m : List (String × JVal)} {k : String} {v : JVal}
    {q : String × JVal} (hq : q ∈ dictSet m k v) : q ∈ m ∨ q = (k, v) := by
  unfold dictSet at hq
  by_cases hc : (m.any fun p => decide (p.1 = k)) = true
  · rw [if_pos hc] at hq
    rcases List.mem_map.mp hq with ⟨p, hp, he⟩
    by_cases hpk : p.1 = k
    · right
      rw [if_pos hpk] at he
      exact he.symm
    · left
      rw [if_neg hpk] at he
      exact he ▸ hp
  · rw [if_neg hc] at hq
    rcases List.mem_append.mp hq with h | h
    · exact Or.inl h
    · right
      simpa using h

lemma dictSet_self_key_mem (m : List (String × JVal)) (k : String) (v : JVal) :
    k ∈ (dictSet m k v).map Prod.fst := by
  unfold dictSet
  by_cases hc : (m.any fun p => decide (p.1 = k)) = true
  · rw [if_pos hc]
    rcases List.any_eq_true.mp hc with ⟨p, hp, hpk⟩
    have hpk2 : p.1 = k := by simpa using hpk
    exact List.mem_map.mpr
      ⟨(k, v), List.mem_map.mpr ⟨p, hp, by rw [if_pos hpk2]⟩, rfl⟩
  · rw [if_neg hc]
    simp

lemma dictSet_key_mono {m : List (String × JVal)} {k2 : String} {v : JVal}
    {k : String} (h : k ∈ m.map Prod.fst) :
    k ∈ (dictSet m k2 v).map Prod.fst := by
  unfold dictSet
  rcases List.mem_map.mp h with ⟨p, hp, hk⟩
  by_cases hc : (m.any fun p => decide (p.1 = k2)) = true
  · rw [if_pos hc]
    by_cases hpk : p.1 = k2
    · refine List.mem_map.mpr
        ⟨(k2, v), List.mem_map.mpr ⟨p, hp, by rw [if_pos hpk]⟩, ?_⟩
      rw [← hpk]
      exact hk
    · exact List.mem_map.mpr
        ⟨p, List.mem_map.mpr ⟨p, hp, by rw [if_neg hpk]⟩, hk⟩
  · rw [if_neg hc, List.map_append]
    exact List.mem_append_left _ h

lemma foldl_dictSet_key_mono {α : Type} (kf : α → String) (vf : α → JVal) :
    ∀ (ps : List α) (acc : List (String × JVal)) (k : String),
      k ∈ acc.map Prod.fst →
      k ∈ (ps.foldl (fun m a => dictSet m (kf a) (vf a)) acc).map Prod.fst := by
  intro ps
  induction ps with
  | nil =>
    intro acc k h
    simpa using h
  | cons a ps ih =>
    intro acc k h
    rw [List.foldl_cons]
    exact ih _ k (dictSet_key_mono h)

lemma foldl_dictSet_key_covers {α : Type} (kf : α → String) (vf : α → JVal) :
    ∀ (ps : List α) (acc : List (String × JVal)), ∀ a ∈ ps,
      kf a ∈ (ps.foldl (fun m a => dictSet m (kf a) (vf a)) acc).map Prod.fst := by
  intro ps
  induction ps with
  | nil =>
    intro acc a ha
    cases ha
  | cons b ps ih =>
    intro acc a ha
    rw [List.foldl_cons]
    rcases List.mem_cons.mp ha with rfl | ha
    · exact foldl_dictSet_key_mono kf vf ps _ (kf a)
        (dictSet_self_key_mem acc (kf a) (vf a))
    · exact ih _ a ha

lemma foldl_dictSet_key_origin {α : Type} (kf : α → String) (vf : α → JVal) :
    ∀ (ps : List α) (acc : List (String × JVal)) (q : String × JVal),
      q ∈ ps.foldl (fun m a => dictSet m (kf a) (vf a)) acc →
      q ∈ acc ∨ ∃ a ∈ ps, q = (kf a, vf a) := by
  intro ps
  induction ps with
  | nil =>
    intro acc q hq
    exact Or.inl (by simpa using hq)
  | cons a ps ih =>
    intro acc q hq
    rw [List.foldl_cons] at hq
    rcases ih (dictSet acc (kf a) (vf a)) q hq with h | ⟨b, hb, he⟩
    · rcases mem_dictSet h with h2 | h2
      · exact Or.inl h2
      · exact Or.inr ⟨a, by simp, h2⟩
    · exact Or.inr ⟨b, by simp [hb], he⟩

/-- Claim C7: `_format_options` turns a sequence into a mapping keyed by
successive uppercase letters from `A` (at most the first 26 entries kept,
as on the example `["print()","display()"]`); a mapping has all its keys
uppercased: every result entry is the uppercasing of an input entry (same
value), and every input key's uppercased form appears among the result
keys; any other shape raises `ValueError` (a per-record normalization
error). -/
theorem format_options_spec :
    (formatOptions (.jarr [.jstr "print()", .jstr "display()"]) =
      .ok (.jobj [("A", .jstr "print()"), ("B", .jstr "display()")])) ∧
    (∀ xs : List JVal, formatOptions (.jarr xs) =
      .ok (.jobj ((xs.take 26).enum.map
        (fun p => (String.singleton (Char.ofNat (65 + p.1)), p.2))))) ∧
    (∀ fields : List (String × JVal), ∃ m,
      formatOptions (.jobj fields) = .ok (.jobj m) ∧
      (∀ p ∈ m, ∃ q ∈ fields, p = (pyUpper q.1, q.2)) ∧
      (∀ q ∈ fields, pyUpper q.1 ∈ m.map Prod.fst)) ∧
    (∀ s, formatOptions (.jstr s) = .error "选项格式不正确") ∧
    (∀ b, formatOptions (.jbool b) = .error "选项格式不正确") ∧
    (∀ n : Int, formatOptions (.jnum n) = .error "选项格式不正确") := by
  refine ⟨rfl, formatOptions_list_eq, ?_, fun s => rfl, fun b => rfl, fun n => rfl⟩
  intro fields
  refine ⟨_, rfl, ?_, ?_⟩
  · intro p hp
    rcases foldl_dictSet_key_origin (fun q : String × JVal => pyUpper q.1) Prod.snd
        fields [] p hp with h | ⟨q, hq, he⟩
    · cases h
    · exact ⟨q, hq, he⟩
  · intro q hq
    exact foldl_dictSet_key_covers (fun q : String × JVal => pyUpper q.1) Prod.snd
      fields [] q hq

/-- Witness for `format_options_spec` (mapping branch at a one-key dict). -/
theorem format_options_spec_witness :
    ∃ m, formatOptions (.jobj [("a", JVal.jstr "x")]) = .ok (.jobj m) ∧
      (∀ p ∈ m, ∃ q ∈ [("a", JVal.jstr "x")], p = (pyUpper q.1, q.2)) ∧
      (∀ q ∈ [("a", JVal.jstr "x")], pyUpper q.1 ∈ m.map Prod.fst) :=
  format_options_spec.2.2.1 [("a", JVal.jstr "x")]

lemma mapM_jstr_upper_fixed :
    ∀ (xs : List String), (∀ x ∈ xs, pyUpper x = x) →
      (xs.map JVal.jstr).mapM (fun x => match x with
        | JVal.jstr s => Except.ok (JVal.jstr (pyUpper s))
        | _ => Except.error "AttributeError") = Except.ok (xs.map JVal.jstr) := by
  intro xs
  induction xs with
  | nil => intro _; rfl
  | cons x txs ih =>
    intro h
    simp only [List.map_cons, List.mapM_cons, h x (by simp),
      ih (fun y hy => h y (by simp [hy]))]
    rfl

/-- Claim C10: normalization is idempotent on already-normalized data: an
options mapping with distinct, already-uppercase keys is returned
unchanged by `_format_options`, and an uppercase string answer, a list of
uppercase string answers, or a boolean answer is returned unchanged by
`_format_answer`. -/
theorem normalization_idempotent (m : List (String × JVal))
    (hnd : (m.map Prod.fst).Nodup) (hup : ∀ p ∈ m, pyUpper p.1 = p.1)
    (s : String) (hs : pyUpper s = s)
    (xs : List String) (hxs : ∀ x ∈ xs, pyUpper x = x) (b : Bool) :
    formatOptions (.jobj m) = .ok (.jobj m) ∧
    formatAnswer (.jstr s) = .ok (.jstr s) ∧
    formatAnswer (.jarr (xs.map JVal.jstr)) = .ok (.jarr (xs.map JVal.jstr)) ∧
    formatAnswer (.jbool b) = .ok (.jbool b) := by
  refine ⟨?_, ?_, ?_, rfl⟩
  · have hmapeq : m.map (fun p => pyUpper p.1) = m.map Prod.fst :=
      List.map_congr_left (fun p hp => hup p hp)
    have hnd' : (m.map (fun p => pyUpper p.1)).Nodup := by
      rw [hmapeq]
      exact hnd
    have hfold := foldl_dictSet_fresh (fun p : String × JVal => pyUpper p.1)
      Prod.snd m [] hnd' (by intro a _ q hq; cases hq)
    simp only [formatOptions]
    rw [hfold]
    have hid : m.map (fun p : String × JVal => (pyUpper p.1, p.2)) = m := by
      have h1 : m.map (fun p : String × JVal => (pyUpper p.1, p.2))
          = m.map (fun p : String × JVal => (p.1, p.2)) :=
        List.map_congr_left (fun p hp => by rw [hup p hp])
      rw [h1]
      have h2 : m.map (fun p : String × JVal => (p.1, p.2)) = m.map id :=
        List.map_congr_left (fun p _ => rfl)
      rw [h2, List.map_id]
    rw [hid]
    simp
  · simp only [formatAnswer, hs]
  · simp only [formatAnswer, mapM_jstr_upper_fixed xs hxs]
    rfl

/-- Witness for `normalization_idempotent` at concrete normalized data. -/
theorem normalization_idempotent_witness :
    formatOptions (.jobj [("A", JVal.jstr "x"), ("B", JVal.jstr "y")]) =
      .ok (.jobj [("A", JVal.jstr "x"), ("B", JVal.jstr "y")]) ∧
    formatAnswer (.jstr "A") = .ok (.jstr "A") ∧
    formatAnswer (.jarr (["A", "C"].map JVal.jstr)) =
      .ok (.jarr (["A", "C"].map JVal.jstr)) ∧
    formatAnswer (.jbool true) = .ok (.jbool true) :=
  normalization_idempotent [("A", JVal.jstr "x"), ("B", JVal.jstr "y")]
    (by decide) (by decide) "A" (by decide) ["A", "C"] (by decide) true

/-- Witness for `plan_partition` at a concrete input. -/
theorem plan_partition_witness :
    (planBatches String.length 5 ["ab", "cd"]).flatten = ["ab", "cd"] :=
  plan_partition String.length 5 ["ab", "cd"]

/-- Witness for `validate_json_resets_errors` at a concrete input. -/
theorem validate_json_resets_errors_witness :
    validateJsonSt scValidator ["stale error"] goodRecord =
      validateJsonSt scValidator [] goodRecord ∧
    ((validateJsonSt scValidator ["stale error"] goodRecord).1 = [] ∨
      ∃ e, (validateJsonSt scValidator ["stale error"] goodRecord).1 = [e]) :=
  validate_json_resets_errors scValidator ["stale error"] [] goodRecord

end ExamBulldozer
